import Mathlib

/-!
Verification of the Podcast-Summarizer repository (src/app.py).

Strings are modelled as `List Char`.  Python primitives used by the code
(`str.strip`, `str.replace`, `str.split`, slicing) are embedded as
executable Lean functions with the same semantics, and each function of
`app.py` that the claims mention is translated to a Lean definition of
the same name.
-/

/-- Python `str.isspace` set used by `str.strip` (Py_UNICODE_ISSPACE):
ASCII 0x09-0x0D, 0x1C-0x1F, space, and the Unicode space code points. -/
def pyIsSpace (c : Char) : Bool :=
  (0x09 ≤ c.toNat && c.toNat ≤ 0x0D) || (0x1C ≤ c.toNat && c.toNat ≤ 0x1F) ||
  c.toNat == 0x20 || c.toNat == 0x85 || c.toNat == 0xA0 || c.toNat == 0x1680 ||
  (0x2000 ≤ c.toNat && c.toNat ≤ 0x200A) || c.toNat == 0x2028 || c.toNat == 0x2029 ||
  c.toNat == 0x202F || c.toNat == 0x205F || c.toNat == 0x3000

/-- Python `str.strip()`: drop whitespace from both ends. -/
def pyStrip (s : List Char) : List Char :=
  ((s.dropWhile pyIsSpace).reverse.dropWhile pyIsSpace).reverse

/-- Fuelled worker for `pyReplace`.  One unit of fuel is spent per step;
`fuel = s.length` always suffices because each step consumes at least one
character of `s` (the replacement pattern is nonempty whenever the first
branch is taken). -/
def pyReplaceF : Nat → List Char → List Char → List Char → List Char
  | 0, s, _, _ => s
  | fuel + 1, s, pat, rep =>
    match s with
    | [] => []
    | c :: rest =>
      if !pat.isEmpty && pat.isPrefixOf (c :: rest) then
        rep ++ pyReplaceF fuel ((c :: rest).drop pat.length) pat rep
      else
        c :: pyReplaceF fuel rest pat rep

/-- Python `s.replace(pat, rep)` for a nonempty pattern: scan left to
right, replacing non-overlapping occurrences; replaced text is not
rescanned.  (The code never calls it with an empty pattern.) -/
def pyReplace (s pat rep : List Char) : List Char :=
  pyReplaceF s.length s pat rep

/-- The replacement table of `clean_text` in `app.py`, in Python dict
(insertion) order: curly double and single quotes to straight quotes,
em and en dash to a hyphen, the ellipsis character to three periods,
and literal `**` removed. -/
def replacements : List (List Char × List Char) :=
  [(['“'], ['"']), (['”'], ['"']),
   (['‘'], ['\'']), (['’'], ['\'']),
   (['—'], ['-']), (['–'], ['-']),
   (['…'], ['.', '.', '.']),
   (['*', '*'], [])]

/-- `clean_text` from `app.py`: apply each replacement in table order,
then strip surrounding whitespace. -/
def clean_text (text : List Char) : List Char :=
  pyStrip (replacements.foldl (fun t p => pyReplace t p.1 p.2) text)

/-- The typed layout blocks produced by `create_pdf`; each block stores
the raw text handed to the corresponding `PDF` method (`chapter_title`,
`chapter_body`, `add_bold_left`, `add_numbered_bullets`,
`add_special_mentions`).  `clean_text` is applied at render time, inside
those methods. -/
inductive Block where
  | title (s : List Char)
  | body (s : List Char)
  | bold (s : List Char)
  | bullets (items : List (List Char))
  | mentions (items : List (List Char))
deriving DecidableEq

/-- Test of `Block.bullets`-ness, used to state that an output contains
no numbered-bullet block. -/
def Block.isBullets : Block → Bool
  | .bullets _ => true
  | _ => false

/-- Mutable loop state of `create_pdf`: emitted blocks so far, the two
accumulation lists `bullet_items` and `special_mentions`, and the flags
`in_bullet_section` and `in_special_mentions`. -/
structure RState where
  blocks : List Block
  bullets : List (List Char)
  mentions : List (List Char)
  inBullets : Bool
  inMentions : Bool
deriving DecidableEq

/-- Initial state of the `create_pdf` loop. -/
def initState : RState := ⟨[], [], [], false, false⟩

/-- Guard of the first branch: Python `re.match(r'^##', line)`. -/
def headerGuard (l : List Char) : Bool := ['#', '#'].isPrefixOf l

/-- Guard of the second branch: Python
`re.match(r'^\*\*.*\*\*$', line)`, i.e. the line starts with `**`, ends
with `**`, and has length at least four (lines contain no newline, so
the dot matches every remaining character). -/
def boldGuard (l : List Char) : Bool :=
  ['*', '*'].isPrefixOf l && ['*', '*'].isSuffixOf l && decide (4 ≤ l.length)

/-- Guard of the third branch: Python `re.match(r'^\* \*\*', line)`. -/
def specialGuard (l : List Char) : Bool := ['*', ' ', '*', '*'].isPrefixOf l

/-- Guard of the fourth branch: Python `re.match(r'^\* [^\*]', line)` —
a star, a space, and then one character that is not a star. -/
def bulletGuard (l : List Char) : Bool :=
  match l with
  | a :: b :: c :: _ => a == '*' && b == ' ' && c != '*'
  | _ => false

/-- Text stored for a bullet line: Python `line[1:].strip()`, then if it
ends with `**` those two characters are dropped and the result stripped
again. -/
def bulletItemText (l : List Char) : List Char :=
  let t := pyStrip (l.drop 1)
  if ['*', '*'].isSuffixOf t then pyStrip (t.take (t.length - 2)) else t

/-- Body of the `for line in lines` loop of `create_pdf`: strip the
line, then run the first matching branch.  Flush blocks mirror the
inline `if in_bullet_section` / `if in_special_mentions` code of the
source. -/
def processLine (st : RState) (rawLine : List Char) : RState :=
  let line := pyStrip rawLine
  if headerGuard line then
    let st1 := if st.inBullets then
      { st with blocks := st.blocks ++ [Block.bullets st.bullets], bullets := [], inBullets := false }
      else st
    let st2 := if st1.inMentions then
      { st1 with blocks := st1.blocks ++ [Block.mentions st1.mentions], mentions := [], inMentions := false }
      else st1
    { st2 with blocks := st2.blocks ++ [Block.title (pyStrip (line.drop 2))] }
  else if boldGuard line then
    let st1 := if st.inBullets then
      { st with blocks := st.blocks ++ [Block.bullets st.bullets], bullets := [], inBullets := false }
      else st
    let st2 := if st1.inMentions then
      { st1 with blocks := st1.blocks ++ [Block.mentions st1.mentions], mentions := [], inMentions := false }
      else st1
    { st2 with blocks := st2.blocks ++ [Block.bold (pyStrip ((line.drop 2).take (line.length - 4)))] }
  else if specialGuard line then
    { st with mentions := st.mentions ++ [pyStrip (line.drop 4)], inMentions := true }
  else if bulletGuard line then
    { st with bullets := st.bullets ++ [bulletItemText line], inBullets := true }
  else
    let st1 := if st.inBullets then
      { st with blocks := st.blocks ++ [Block.bullets st.bullets], bullets := [], inBullets := false }
      else st
    let st2 := if st1.inMentions then
      { st1 with blocks := st1.blocks ++ [Block.mentions st1.mentions], mentions := [], inMentions := false }
      else st1
    { st2 with blocks := st2.blocks ++ [Block.body line] }

/-- State after the `for` loop of `create_pdf`: the input split on
newlines (Python `content.split('\n')`) folded through `processLine`. -/
def accumState (content : List Char) : RState :=
  (content.splitOn '\n').foldl processLine initState

/-- The block sequence `create_pdf` lays out for a summary text: run the
loop, flush a remaining nonempty `bullet_items` then a remaining
nonempty `special_mentions`, and append the closing chapter title. -/
def renderBlocks (content : List Char) : List Block :=
  let st := accumState content
  let st1 := if st.bullets ≠ [] then
    { st with blocks := st.blocks ++ [Block.bullets st.bullets] } else st
  let st2 := if st1.mentions ≠ [] then
    { st1 with blocks := st1.blocks ++ [Block.mentions st1.mentions] } else st1
  st2.blocks ++ [Block.title ("Generated By Neural Bee".toList)]

/-- The dictionary returned by `generate_summary` on success: the model
response text under `summary`, and six always-empty lists. -/
structure SummaryDict where
  summary : List Char
  quick_lessons : List (List Char)
  dos : List (List Char)
  donts : List (List Char)
  key_pointers : List (List Char)
  special_mentions : List (List Char)
deriving DecidableEq

/-- The rendered document: the text of the running page header
(`PDF.header`) and the laid-out content blocks. -/
structure Doc where
  headerText : List Char
  blocks : List Block
deriving DecidableEq

/-- `create_pdf` from `app.py`: renders `summary.get('summary', '')`
(the dictionary always carries the key) into blocks under the fixed
header. -/
def create_pdf (summary : SummaryDict) : Doc :=
  { headerText := ("NeuralBee - Podcast Summarizer".toList),
    blocks := renderBlocks summary.summary }

/-- Modelled from the spec: the PDF framework (fpdf) invokes the
`header` override at the start of every page; `PDF.header` in `app.py`
writes one fixed centred cell and consults no page-dependent state, so
the stamped header is the same constant on each page. -/
def headerOnPage (d : Doc) (_page : Nat) : List Char := d.headerText

/-- Worker for `PDF.add_numbered_bullets`: Python
`for idx, item in enumerate(items, start=1): multi_cell(f"idx. clean_text(item)")`. -/
def numberedBulletLines (idx : Nat) : List (List Char) → List (List Char)
  | [] => []
  | item :: rest =>
    ((Nat.repr idx).toList ++ '.' :: ' ' :: clean_text item) :: numberedBulletLines (idx + 1) rest

/-- `PDF.add_numbered_bullets`: the text lines it writes. -/
def add_numbered_bullets (items : List (List Char)) : List (List Char) :=
  numberedBulletLines 1 items

/-- Worker for `PDF.add_special_mentions`, transcribed separately from
its own (duplicated) source body. -/
def specialMentionLines (idx : Nat) : List (List Char) → List (List Char)
  | [] => []
  | item :: rest =>
    ((Nat.repr idx).toList ++ '.' :: ' ' :: clean_text item) :: specialMentionLines (idx + 1) rest

/-- `PDF.add_special_mentions`: the text lines it writes. -/
def add_special_mentions (items : List (List Char)) : List (List Char) :=
  specialMentionLines 1 items

/-- Text lines a block lays out: `chapter_title`, `chapter_body` and
`add_bold_left` write one `clean_text`-sanitized cell; the two list
blocks write their numbered lines. -/
def renderBlockLines : Block → List (List Char)
  | .title s => [clean_text s]
  | .body s => [clean_text s]
  | .bold s => [clean_text s]
  | .bullets items => add_numbered_bullets items
  | .mentions items => add_special_mentions items

/-- One attempt of the pattern `v=([^&]+)` at the current position:
it matches when the next characters are `v`, `=`, and at least one
character that is not `&`; the group is the maximal run of non-`&`
characters after the `v=`. -/
def matchHere (s : List Char) : Option (List Char) :=
  match s with
  | a :: b :: c :: rest =>
    if a = 'v' ∧ b = '=' ∧ c ≠ '&' then
      some ((c :: rest).takeWhile (fun x => x != '&'))
    else none
  | _ => none

/-- Python `re.search(r"v=([^&]+)", s)`: try the pattern at each
position from the left and return the first group of the leftmost
match. -/
def searchVid : List Char → Option (List Char)
  | [] => none
  | c :: rest =>
    match matchHere (c :: rest) with
    | some v => some v
    | none => searchVid rest

/-- `extract_video_id` from `app.py`: the group of the regex search, or
`None` (with an error message shown) when the search fails. -/
def extract_video_id (yt_url : List Char) : Option (List Char) :=
  searchVid yt_url

/-- `get_transcript` from `app.py`: the transcript API either returns an
SRT string or raises; on an exception the function returns `None`.  The
call outcome is the argument. -/
def get_transcript (result : Option (List Char)) : Option (List Char) :=
  result

/-- `translate_text` from `app.py`: on success the translated text is
returned; when the translation service raises, the function returns its
input `text` unchanged. -/
def translate_text (result : Option (List Char)) (text : List Char) : List Char :=
  match result with
  | some translated => translated
  | none => text

/-- `generate_summary` from `app.py`: on success a dictionary with the
response text under `summary` and six empty lists; when the model call
raises, the empty (falsy) dictionary, modelled as `none`. -/
def generate_summary (response : Option (List Char)) : Option SummaryDict :=
  match response with
  | some text => some ⟨text, [], [], [], [], []⟩
  | none => none

/-- `send_email` from `app.py`: attempts the SMTP send; reports success
or shows an error.  The outcome is the argument. -/
def send_email (mailOk : Bool) : Bool := mailOk

/-- Outcomes of the external calls and the UI inputs of one page run:
`none` for a call models the wrapped exception branch. -/
structure Oracles where
  transcriptResult : Option (List Char)
  translationResult : Option (List Char)
  summaryResult : Option (List Char)
  mailOk : Bool
  generatePressed : Bool
  emailAddress : List Char
  sendPressed : Bool

/-- Observable outcome of the Streamlit flow at the bottom of `app.py`:
which steps ran and with which values. -/
structure FlowTrace where
  videoId : Option (List Char)
  transcriptShown : Bool
  summaryInput : Option (List Char)
  pdfCreated : Bool
  emailAttempted : Bool
  emailSent : Bool
deriving DecidableEq

/-- The `if yt_url:` flow of `app.py` lines 298-329: extract the video
id, fetch the transcript, translate it (always, once the transcript is
truthy), and on the generate button build the summary, create the PDF
and optionally send the mail. -/
def appRun (yt_url : List Char) (o : Oracles) : FlowTrace :=
  if yt_url = [] then ⟨none, false, none, false, false, false⟩ else
  match extract_video_id yt_url with
  | none => ⟨none, false, none, false, false, false⟩
  | some vid =>
    match get_transcript o.transcriptResult with
    | none => ⟨some vid, false, none, false, false, false⟩
    | some t =>
      if t = [] then ⟨some vid, false, none, false, false, false⟩
      else
        let translated := translate_text o.translationResult t
        if o.generatePressed then
          match generate_summary o.summaryResult with
          | none => ⟨some vid, true, some translated, false, false, false⟩
          | some _summary =>
            if o.emailAddress ≠ [] ∧ o.sendPressed then
              ⟨some vid, true, some translated, true, true, send_email o.mailOk⟩
            else
              ⟨some vid, true, some translated, true, false, false⟩
        else ⟨some vid, true, none, false, false, false⟩

/-- The five classification outcomes of the renderer loop. -/
inductive LineClass where
  | header
  | bold
  | special
  | bullet
  | para
deriving DecidableEq

/-- Classification of a stripped line by the first matching rule of the
precedence order (the fourth rule as amended: a star, a space, then a
character other than a star). -/
def classifyLine (l : List Char) : LineClass :=
  if headerGuard l then .header
  else if boldGuard l then .bold
  else if specialGuard l then .special
  else if bulletGuard l then .bullet
  else .para

/-- Specification-side flush of an open numbered-bullet accumulation. -/
def flushBulletsSpec (st : RState) : RState :=
  if st.inBullets then
    { st with blocks := st.blocks ++ [Block.bullets st.bullets], bullets := [], inBullets := false }
  else st

/-- Specification-side flush of an open special-mentions accumulation. -/
def flushMentionsSpec (st : RState) : RState :=
  if st.inMentions then
    { st with blocks := st.blocks ++ [Block.mentions st.mentions], mentions := [], inMentions := false }
  else st

/-- Specification-side closing of any open accumulation, bullets first. -/
def closeAccums (st : RState) : RState :=
  flushMentionsSpec (flushBulletsSpec st)

/-- Append one emitted block to the state. -/
def addBlock (st : RState) (b : Block) : RState :=
  { st with blocks := st.blocks ++ [b] }

/-- Specification-side transition of the renderer loop on one stripped
line: dispatch on the classification; the three non-accumulating
outcomes close any open accumulation first, the two accumulating
outcomes extend their list and mark it open. -/
def stepSpec (st : RState) (l : List Char) : RState :=
  match classifyLine l with
  | .header => addBlock (closeAccums st) (Block.title (pyStrip (l.drop 2)))
  | .bold => addBlock (closeAccums st) (Block.bold (pyStrip ((l.drop 2).take (l.length - 4))))
  | .special => { st with mentions := st.mentions ++ [pyStrip (l.drop 4)], inMentions := true }
  | .bullet => { st with bullets := st.bullets ++ [bulletItemText l], inBullets := true }
  | .para => addBlock (closeAccums st) (Block.body l)

/-- The classification rules of the specification as a relation: one
introduction rule per outcome, each carrying the side conditions that
the earlier rules of the precedence order do not apply. -/
inductive Classifies : List Char → LineClass → Prop where
  | header (l : List Char) (t : List Char) :
      l = '#' :: '#' :: t → Classifies l .header
  | bold (l : List Char) (mid : List Char) :
      (∀ t, l ≠ '#' :: '#' :: t) →
      l = '*' :: '*' :: (mid ++ ['*', '*']) → Classifies l .bold
  | special (l : List Char) (t : List Char) :
      (∀ t', l ≠ '#' :: '#' :: t') →
      (∀ mid, l ≠ '*' :: '*' :: (mid ++ ['*', '*'])) →
      l = '*' :: ' ' :: '*' :: '*' :: t → Classifies l .special
  | bullet (l : List Char) (c : Char) (t : List Char) :
      (∀ t', l ≠ '#' :: '#' :: t') →
      (∀ mid, l ≠ '*' :: '*' :: (mid ++ ['*', '*'])) →
      (∀ t', l ≠ '*' :: ' ' :: '*' :: '*' :: t') →
      l = '*' :: ' ' :: c :: t → c ≠ '*' → Classifies l .bullet
  | para (l : List Char) :
      (∀ t, l ≠ '#' :: '#' :: t) →
      (∀ mid, l ≠ '*' :: '*' :: (mid ++ ['*', '*'])) →
      (∀ t, l ≠ '*' :: ' ' :: '*' :: '*' :: t) →
      (∀ c t, l = '*' :: ' ' :: c :: t → c = '*') → Classifies l .para

/-- Occurrence of a pattern as a contiguous substring. -/
def occursIn (pat s : List Char) : Prop :=
  ∃ u v, s = u ++ (pat ++ v)

/-! ### Helper lemmas about the embedded Python string primitives -/

theorem isPrefixOf_iff : ∀ (p l : List Char), p.isPrefixOf l = true ↔ ∃ t, p ++ t = l := by
  intro p
  induction p with
  | nil => intro l; simp [List.isPrefixOf]
  | cons a as ih =>
    intro l
    cases l with
    | nil => simp [List.isPrefixOf]
    | cons b bs =>
      simp only [List.isPrefixOf, Bool.and_eq_true, beq_iff_eq, ih bs, List.cons_append]
      constructor
      · rintro ⟨rfl, t, rfl⟩; exact ⟨t, rfl⟩
      · rintro ⟨t, ht⟩
        injection ht with h1 h2
        exact ⟨h1, t, h2⟩

theorem isSuffixOf_iff (p l : List Char) : p.isSuffixOf l = true ↔ ∃ t, t ++ p = l := by
  simp only [List.isSuffixOf, isPrefixOf_iff]
  constructor
  · rintro ⟨t, ht⟩
    refine ⟨t.reverse, ?_⟩
    have h2 := congrArg List.reverse ht
    simpa [List.reverse_append] using h2
  · rintro ⟨t, rfl⟩
    exact ⟨t.reverse, by simp [List.reverse_append]⟩

theorem occursIn_of_cons {pat t : List Char} {c : Char} (h : occursIn pat t) :
    occursIn pat (c :: t) := by
  obtain ⟨u, v, rfl⟩ := h
  exact ⟨c :: u, v, rfl⟩

theorem occursIn_cons {pat t : List Char} {c : Char} :
    occursIn pat (c :: t) ↔ (∃ v, c :: t = pat ++ v) ∨ occursIn pat t := by
  constructor
  · rintro ⟨u, v, huv⟩
    cases u with
    | nil => exact Or.inl ⟨v, huv⟩
    | cons x u' =>
      injection huv with h1 h2
      exact Or.inr ⟨u', v, h2⟩
  · rintro (⟨v, hv⟩ | h)
    · exact ⟨[], v, hv⟩
    · exact occursIn_of_cons h

theorem occursIn_singleton {a : Char} {s : List Char} : occursIn [a] s ↔ a ∈ s := by
  constructor
  · rintro ⟨u, v, rfl⟩; simp
  · intro h
    obtain ⟨u, v, rfl⟩ := List.append_of_mem h
    exact ⟨u, v, rfl⟩

theorem not_occursIn_short {pat s : List Char} (h : s.length < pat.length) :
    ¬ occursIn pat s := by
  rintro ⟨u, v, rfl⟩
  simp [List.length_append] at h
  omega

theorem pyReplaceF_nil (f : Nat) (pat rep : List Char) : pyReplaceF f [] pat rep = [] := by
  cases f <;> rfl

theorem pyReplaceF_stable : ∀ (f₁ f₂ : Nat) (s pat rep : List Char),
    s.length ≤ f₁ → s.length ≤ f₂ → pyReplaceF f₁ s pat rep = pyReplaceF f₂ s pat rep := by
  intro f₁
  induction f₁ with
  | zero =>
    intro f₂ s pat rep h1 _
    have hs : s = [] := List.eq_nil_of_length_eq_zero (Nat.le_zero.mp h1)
    subst hs
    simp [pyReplaceF_nil]
  | succ f ih =>
    intro f₂ s pat rep h1 h2
    cases s with
    | nil => simp [pyReplaceF_nil]
    | cons c rest =>
      cases f₂ with
      | zero => simp at h2
      | succ g =>
        show pyReplaceF (f + 1) (c :: rest) pat rep = pyReplaceF (g + 1) (c :: rest) pat rep
        simp only [pyReplaceF]
        by_cases hc : (!pat.isEmpty && pat.isPrefixOf (c :: rest)) = true
        · rw [if_pos hc, if_pos hc]
          have hpat : 0 < pat.length := by
            rcases Bool.and_eq_true .. ▸ hc with ⟨hne, _⟩
            cases pat with
            | nil => simp at hne
            | cons _ _ => simp
          have e1 : ((c :: rest).drop pat.length).length ≤ f := by
            simp [List.length_drop] at h1 ⊢; omega
          have e2 : ((c :: rest).drop pat.length).length ≤ g := by
            simp [List.length_drop] at h2 ⊢; omega
          rw [ih g _ pat rep e1 e2]
        · rw [if_neg hc, if_neg hc]
          have e1 : rest.length ≤ f := by simp at h1; omega
          have e2 : rest.length ≤ g := by simp at h2; omega
          rw [ih g rest pat rep e1 e2]

theorem pyReplace_cons (c : Char) (rest pat rep : List Char) :
    pyReplace (c :: rest) pat rep =
      if !pat.isEmpty && pat.isPrefixOf (c :: rest) then
        rep ++ pyReplace ((c :: rest).drop pat.length) pat rep
      else c :: pyReplace rest pat rep := by
  show pyReplaceF (rest.length + 1) (c :: rest) pat rep = _
  simp only [pyReplaceF]
  by_cases hc : (!pat.isEmpty && pat.isPrefixOf (c :: rest)) = true
  · rw [if_pos hc, if_pos hc]
    have hpat : 0 < pat.length := by
      rcases Bool.and_eq_true .. ▸ hc with ⟨hne, _⟩
      cases pat with
      | nil => simp at hne
      | cons _ _ => simp
    have hlen : ((c :: rest).drop pat.length).length ≤ rest.length := by
      simp [List.length_drop]; omega
    rw [pyReplaceF_stable rest.length ((c :: rest).drop pat.length).length _ pat rep hlen le_rfl]
    rfl
  · rw [if_neg hc, if_neg hc]
    rfl

theorem mem_pyReplaceF : ∀ (f : Nat) (s pat rep : List Char) (x : Char),
    x ∈ pyReplaceF f s pat rep → x ∈ s ∨ x ∈ rep := by
  intro f
  induction f with
  | zero => intro s pat rep x hx; exact Or.inl hx
  | succ f ih =>
    intro s pat rep x hx
    cases s with
    | nil => simp [pyReplaceF_nil] at hx
    | cons c rest =>
      simp only [pyReplaceF] at hx
      by_cases hc : (!pat.isEmpty && pat.isPrefixOf (c :: rest)) = true
      · rw [if_pos hc] at hx
        rcases List.mem_append.mp hx with h | h
        · exact Or.inr h
        · rcases ih _ pat rep x h with h' | h'
          · exact Or.inl (List.mem_of_mem_drop h')
          · exact Or.inr h'
      · rw [if_neg hc] at hx
        rcases List.mem_cons.mp hx with h | h
        · exact Or.inl (h ▸ List.mem_cons_self c rest)
        · rcases ih rest pat rep x h with h' | h'
          · exact Or.inl (List.mem_cons_of_mem c h')
          · exact Or.inr h'

theorem mem_pyReplace {x : Char} {s pat rep : List Char}
    (hx : x ∈ pyReplace s pat rep) : x ∈ s ∨ x ∈ rep :=
  mem_pyReplaceF s.length s pat rep x hx

theorem not_mem_pyReplace {a : Char} {s pat rep : List Char}
    (h1 : a ∉ s) (h2 : a ∉ rep) : a ∉ pyReplace s pat rep :=
  fun hm => (mem_pyReplace hm).elim h1 h2

theorem pyReplaceF_of_not_occurs : ∀ (f : Nat) (s pat rep : List Char),
    ¬ occursIn pat s → pyReplaceF f s pat rep = s := by
  intro f
  induction f with
  | zero => intro s pat rep _; rfl
  | succ f ih =>
    intro s pat rep h
    cases s with
    | nil => rfl
    | cons c rest =>
      simp only [pyReplaceF]
      have hc : (!pat.isEmpty && pat.isPrefixOf (c :: rest)) = false := by
        by_contra hcon
        have hc' := eq_true_of_ne_false hcon
        rcases Bool.and_eq_true .. ▸ hc' with ⟨_, hpre⟩
        obtain ⟨t, ht⟩ := (isPrefixOf_iff pat (c :: rest)).mp hpre
        exact h ⟨[], t, ht.symm⟩
      rw [if_neg (by simp [hc])]
      rw [ih rest pat rep (fun ho => h (occursIn_of_cons ho))]

theorem pyReplace_of_not_occurs {s pat rep : List Char}
    (h : ¬ occursIn pat s) : pyReplace s pat rep = s :=
  pyReplaceF_of_not_occurs s.length s pat rep h

theorem pyReplace_single_id {a : Char} {s rep : List Char} (h : a ∉ s) :
    pyReplace s [a] rep = s :=
  pyReplace_of_not_occurs (fun hocc => h (occursIn_singleton.mp hocc))

theorem mem_pyReplaceF_single : ∀ (f : Nat) (s : List Char) (a : Char) (rep : List Char),
    s.length ≤ f → a ∉ rep → a ∉ pyReplaceF f s [a] rep := by
  intro f
  induction f with
  | zero =>
    intro s a rep h1 _
    have hs : s = [] := List.eq_nil_of_length_eq_zero (Nat.le_zero.mp h1)
    subst hs
    simp [pyReplaceF_nil]
  | succ f ih =>
    intro s a rep h1 h2
    cases s with
    | nil => simp [pyReplaceF_nil]
    | cons c rest =>
      simp only [pyReplaceF]
      have hlen : rest.length ≤ f := by simp at h1; omega
      by_cases hac : a = c
      · have hpre : (!(List.isEmpty [a]) && List.isPrefixOf [a] (c :: rest)) = true := by
          simp [List.isPrefixOf, hac]
        rw [if_pos hpre]
        intro hmem
        rcases List.mem_append.mp hmem with h | h
        · exact h2 h
        · have : (c :: rest).drop ([a] : List Char).length = rest := rfl
          rw [this] at h
          exact ih rest a rep hlen h2 h
      · have hpre : (!(List.isEmpty [a]) && List.isPrefixOf [a] (c :: rest)) = false := by
          simp [List.isPrefixOf]
          exact hac
        rw [if_neg (fun hcon => Bool.false_ne_true (hpre ▸ hcon))]
        intro hmem
        rcases List.mem_cons.mp hmem with h | h
        · exact hac h
        · exact ih rest a rep hlen h2 h

theorem mem_pyReplace_single {a : Char} {rep : List Char} (h2 : a ∉ rep)
    (s : List Char) : a ∉ pyReplace s [a] rep :=
  mem_pyReplaceF_single s.length s a rep le_rfl h2

theorem pyReplaceF_star_free : ∀ (f : Nat) (s : List Char), s.length ≤ f →
    ¬ occursIn ['*', '*'] (pyReplaceF f s ['*', '*'] []) := by
  intro f
  induction f with
  | zero =>
    intro s h1
    have hs : s = [] := List.eq_nil_of_length_eq_zero (Nat.le_zero.mp h1)
    subst hs
    exact not_occursIn_short (by decide)
  | succ f ih =>
    intro s h1
    cases s with
    | nil =>
      rw [pyReplaceF_nil]
      exact not_occursIn_short (by simp)
    | cons c rest =>
      simp only [pyReplaceF]
      have hlen : rest.length ≤ f := by simp at h1; omega
      by_cases hc : c = '*'
      · subst hc
        cases rest with
        | nil =>
          have hpre : (!(List.isEmpty ['*', '*']) && List.isPrefixOf ['*', '*'] ['*']) = false := by
            decide
          rw [if_neg (fun hcon => Bool.false_ne_true (hpre ▸ hcon))]
          rw [pyReplaceF_nil]
          exact not_occursIn_short (by simp)
        | cons d r2 =>
          by_cases hd : d = '*'
          · subst hd
            have hpre : (!(List.isEmpty ['*', '*']) &&
                List.isPrefixOf ['*', '*'] ('*' :: '*' :: r2)) = true := by
              simp [List.isPrefixOf]
            rw [if_pos hpre]
            have hr2 : r2.length ≤ f := by simp at hlen; omega
            simpa using ih r2 hr2
          · have hpre : (!(List.isEmpty ['*', '*']) &&
                List.isPrefixOf ['*', '*'] ('*' :: d :: r2)) = false := by
              cases hb : List.isPrefixOf ['*', '*'] ('*' :: d :: r2) with
              | false => simp [hb]
              | true =>
                exfalso
                obtain ⟨t, ht⟩ := (isPrefixOf_iff _ _).mp hb
                injection ht with _ ht2
                injection ht2 with hd2 _
                exact hd hd2.symm
            rw [if_neg (fun hcon => Bool.false_ne_true (hpre ▸ hcon))]
            intro hocc
            rcases occursIn_cons.mp hocc with ⟨v, hv⟩ | hocc'
            · injection hv with hv1 hv2
              cases f with
              | zero => simp at hlen
              | succ g =>
                have hpre2 : (!(List.isEmpty ['*', '*']) &&
                    List.isPrefixOf ['*', '*'] (d :: r2)) = false := by
                  cases hb : List.isPrefixOf ['*', '*'] (d :: r2) with
                  | false => simp [hb]
                  | true =>
                    exfalso
                    obtain ⟨t, ht⟩ := (isPrefixOf_iff _ _).mp hb
                    injection ht with hd2 _
                    exact hd hd2.symm
                have hR : pyReplaceF (g + 1) (d :: r2) ['*', '*'] [] =
                    d :: pyReplaceF g r2 ['*', '*'] [] := by
                  simp only [pyReplaceF]
                  rw [if_neg (fun hcon => Bool.false_ne_true (hpre2 ▸ hcon))]
                rw [hR] at hv2
                injection hv2 with hv3 _
                exact hd hv3
            · exact ih (d :: r2) hlen hocc'
      · have hpre : (!(List.isEmpty ['*', '*']) &&
            List.isPrefixOf ['*', '*'] (c :: rest)) = false := by
          cases hb : List.isPrefixOf ['*', '*'] (c :: rest) with
          | false => simp [hb]
          | true =>
            exfalso
            obtain ⟨t, ht⟩ := (isPrefixOf_iff _ _).mp hb
            injection ht with hc2 _
            exact hc hc2.symm
        rw [if_neg (fun hcon => Bool.false_ne_true (hpre ▸ hcon))]
        intro hocc
        rcases occursIn_cons.mp hocc with ⟨v, hv⟩ | hocc'
        · injection hv with hv1 _
          exact hc hv1
        · exact ih rest hlen hocc'

theorem pyReplace_star_free (s : List Char) :
    ¬ occursIn ['*', '*'] (pyReplace s ['*', '*'] []) :=
  pyReplaceF_star_free s.length s le_rfl

theorem dropWhile_head_false {p : Char → Bool} :
    ∀ {l : List Char} {c : Char} {t : List Char}, l.dropWhile p = c :: t → p c = false := by
  intro l
  induction l with
  | nil => intro c t h; simp [List.dropWhile] at h
  | cons a l' ih =>
    intro c t h
    rw [List.dropWhile_cons] at h
    by_cases ha : p a = true
    · rw [if_pos ha] at h
      exact ih h
    · rw [if_neg ha] at h
      injection h with h1 _
      subst h1
      exact Bool.not_eq_true .. ▸ ha

theorem dropWhile_cons_false {p : Char → Bool} {c : Char} {t : List Char} (h : p c = false) :
    (c :: t).dropWhile p = c :: t := by
  rw [List.dropWhile_cons, if_neg (by simp [h])]

theorem dropWhile_self_of_head {p : Char → Bool} :
    ∀ {l : List Char}, (∀ c t, l = c :: t → p c = false) → l.dropWhile p = l := by
  intro l h
  cases l with
  | nil => rfl
  | cons c t => exact dropWhile_cons_false (h c t rfl)

theorem dropWhile_decomp (p : Char → Bool) (l : List Char) :
    l = l.takeWhile p ++ l.dropWhile p :=
  (List.takeWhile_append_dropWhile ..).symm

theorem pyStrip_inner_decomp (s : List Char) :
    s.dropWhile pyIsSpace =
      pyStrip s ++ ((s.dropWhile pyIsSpace).reverse.takeWhile pyIsSpace).reverse := by
  have h := List.takeWhile_append_dropWhile
    (p := pyIsSpace) (l := (s.dropWhile pyIsSpace).reverse)
  have h2 := congrArg List.reverse h
  simp only [List.reverse_append, List.reverse_reverse] at h2
  exact h2.symm

theorem pyStrip_decomp (s : List Char) : ∃ u v, s = u ++ (pyStrip s ++ v) := by
  refine ⟨s.takeWhile pyIsSpace,
    ((s.dropWhile pyIsSpace).reverse.takeWhile pyIsSpace).reverse, ?_⟩
  conv_lhs => rw [dropWhile_decomp pyIsSpace s]
  rw [← pyStrip_inner_decomp s]

theorem pyStrip_mem {x : Char} {s : List Char} (h : x ∈ pyStrip s) : x ∈ s := by
  obtain ⟨u, v, hs⟩ := pyStrip_decomp s
  rw [hs]
  simp [List.mem_append, h]

theorem pyStrip_occursIn {pat s : List Char} (h : occursIn pat (pyStrip s)) :
    occursIn pat s := by
  obtain ⟨u, v, hs⟩ := pyStrip_decomp s
  obtain ⟨u', v', h'⟩ := h
  exact ⟨u ++ u', v' ++ v, by rw [hs, h']; simp [List.append_assoc]⟩

theorem pyStrip_idem (s : List Char) : pyStrip (pyStrip s) = pyStrip s := by
  have hstep : (pyStrip s).dropWhile pyIsSpace = pyStrip s := by
    apply dropWhile_self_of_head
    intro c t hct
    have hinner := pyStrip_inner_decomp s
    rw [hct] at hinner
    exact dropWhile_head_false (t := t ++ _) (by rw [hinner]; rfl)
  show (((pyStrip s).dropWhile pyIsSpace).reverse.dropWhile pyIsSpace).reverse = pyStrip s
  rw [hstep]
  show (((s.dropWhile pyIsSpace).reverse.dropWhile pyIsSpace).reverse.reverse.dropWhile
    pyIsSpace).reverse = pyStrip s
  rw [List.reverse_reverse]
  have hb : ((s.dropWhile pyIsSpace).reverse.dropWhile pyIsSpace).dropWhile pyIsSpace =
      (s.dropWhile pyIsSpace).reverse.dropWhile pyIsSpace := by
    apply dropWhile_self_of_head
    intro c t hct
    exact dropWhile_head_false hct
  rw [hb]
  rfl

theorem clean_text_eq (s : List Char) :
    clean_text s =
      pyStrip (pyReplace (pyReplace (pyReplace (pyReplace (pyReplace (pyReplace (pyReplace
        (pyReplace s ['“'] ['"']) ['”'] ['"']) ['‘'] ['\'']) ['’'] ['\''])
        ['—'] ['-']) ['–'] ['-']) ['…'] ['.', '.', '.']) ['*', '*'] []) := by
  simp only [clean_text, replacements, List.foldl]

theorem clean_text_props (s : List Char) :
    '“' ∉ clean_text s ∧ '”' ∉ clean_text s ∧ '‘' ∉ clean_text s ∧ '’' ∉ clean_text s ∧
    '—' ∉ clean_text s ∧ '–' ∉ clean_text s ∧ '…' ∉ clean_text s ∧
    ¬ occursIn ['*', '*'] (clean_text s) ∧ pyStrip (clean_text s) = clean_text s := by
  rw [clean_text_eq s]
  refine ⟨?_, ?_, ?_, ?_, ?_, ?_, ?_, ?_, pyStrip_idem _⟩
  · intro h
    refine absurd (pyStrip_mem h) ?_
    exact not_mem_pyReplace (not_mem_pyReplace (not_mem_pyReplace (not_mem_pyReplace
      (not_mem_pyReplace (not_mem_pyReplace (not_mem_pyReplace
        (mem_pyReplace_single (by decide) s) (by decide)) (by decide)) (by decide))
      (by decide)) (by decide)) (by decide)) (by decide)
  · intro h
    refine absurd (pyStrip_mem h) ?_
    exact not_mem_pyReplace (not_mem_pyReplace (not_mem_pyReplace (not_mem_pyReplace
      (not_mem_pyReplace (not_mem_pyReplace
        (mem_pyReplace_single (by decide) _) (by decide)) (by decide)) (by decide))
      (by decide)) (by decide)) (by decide)
  · intro h
    refine absurd (pyStrip_mem h) ?_
    exact not_mem_pyReplace (not_mem_pyReplace (not_mem_pyReplace (not_mem_pyReplace
      (not_mem_pyReplace
        (mem_pyReplace_single (by decide) _) (by decide)) (by decide)) (by decide))
      (by decide)) (by decide)
  · intro h
    refine absurd (pyStrip_mem h) ?_
    exact not_mem_pyReplace (not_mem_pyReplace (not_mem_pyReplace (not_mem_pyReplace
      (mem_pyReplace_single (by decide) _) (by decide)) (by decide)) (by decide)) (by decide)
  · intro h
    refine absurd (pyStrip_mem h) ?_
    exact not_mem_pyReplace (not_mem_pyReplace (not_mem_pyReplace
      (mem_pyReplace_single (by decide) _) (by decide)) (by decide)) (by decide)
  · intro h
    refine absurd (pyStrip_mem h) ?_
    exact not_mem_pyReplace (not_mem_pyReplace
      (mem_pyReplace_single (by decide) _) (by decide)) (by decide)
  · intro h
    refine absurd (pyStrip_mem h) ?_
    exact not_mem_pyReplace (mem_pyReplace_single (by decide) _) (by decide)
  · intro h
    exact pyReplace_star_free _ (pyStrip_occursIn h)

theorem headerGuard_iff (l : List Char) :
    headerGuard l = true ↔ ∃ t, l = '#' :: '#' :: t := by
  simp only [headerGuard, isPrefixOf_iff]
  constructor
  · rintro ⟨t, ht⟩; exact ⟨t, ht.symm⟩
  · rintro ⟨t, ht⟩; exact ⟨t, ht.symm⟩

theorem boldGuard_iff (l : List Char) :
    boldGuard l = true ↔ ∃ mid, l = '*' :: '*' :: (mid ++ ['*', '*']) := by
  simp only [boldGuard, Bool.and_eq_true, isPrefixOf_iff, isSuffixOf_iff, decide_eq_true_eq]
  constructor
  · rintro ⟨⟨⟨t, ht⟩, ⟨u, hu⟩⟩, hlen⟩
    subst ht
    cases u with
    | nil =>
      injection hu with _ hu2
      injection hu2 with _ hu3
      subst hu3
      simp at hlen
    | cons x u' =>
      cases u' with
      | nil =>
        injection hu with _ hu2
        injection hu2 with _ hu3
        subst hu3
        simp at hlen
      | cons y u'' =>
        injection hu with hx hu2
        injection hu2 with hy hu3
        have ht3 : u'' ++ ['*', '*'] = t := by simpa using hu3
        refine ⟨u'', ?_⟩
        rw [← ht3]
        rfl
  · rintro ⟨mid, rfl⟩
    refine ⟨⟨⟨mid ++ ['*', '*'], rfl⟩, ⟨'*' :: '*' :: mid, by simp⟩⟩, ?_⟩
    simp [List.length_append]

theorem specialGuard_iff (l : List Char) :
    specialGuard l = true ↔ ∃ t, l = '*' :: ' ' :: '*' :: '*' :: t := by
  simp only [specialGuard, isPrefixOf_iff]
  constructor
  · rintro ⟨t, ht⟩; exact ⟨t, ht.symm⟩
  · rintro ⟨t, ht⟩; exact ⟨t, ht.symm⟩

theorem bulletGuard_iff (l : List Char) :
    bulletGuard l = true ↔ ∃ c t, l = '*' :: ' ' :: c :: t ∧ c ≠ '*' := by
  cases l with
  | nil => simp [bulletGuard]
  | cons a l1 =>
    cases l1 with
    | nil => simp [bulletGuard]
    | cons b l2 =>
      cases l2 with
      | nil => simp [bulletGuard]
      | cons c t =>
        simp only [bulletGuard, Bool.and_eq_true, beq_iff_eq, bne_iff_ne]
        constructor
        · rintro ⟨⟨ha, hb⟩, hc⟩
          exact ⟨c, t, by rw [ha, hb], hc⟩
        · rintro ⟨c', t', ht, hc'⟩
          injection ht with h1 ht2
          injection ht2 with h2 ht3
          injection ht3 with h3 _
          subst h1; subst h2; subst h3
          exact ⟨⟨rfl, rfl⟩, hc'⟩

theorem classifies_total (l : List Char) : Classifies l (classifyLine l) := by
  unfold classifyLine
  by_cases hh : headerGuard l = true
  · rw [if_pos hh]
    obtain ⟨t, ht⟩ := (headerGuard_iff l).mp hh
    exact .header l t ht
  · rw [if_neg hh]
    have nh : ∀ t, l ≠ '#' :: '#' :: t := fun t ht => hh ((headerGuard_iff l).mpr ⟨t, ht⟩)
    by_cases hb : boldGuard l = true
    · rw [if_pos hb]
      obtain ⟨mid, hm⟩ := (boldGuard_iff l).mp hb
      exact .bold l mid nh hm
    · rw [if_neg hb]
      have nb : ∀ mid, l ≠ '*' :: '*' :: (mid ++ ['*', '*']) :=
        fun mid hm => hb ((boldGuard_iff l).mpr ⟨mid, hm⟩)
      by_cases hs : specialGuard l = true
      · rw [if_pos hs]
        obtain ⟨t, ht⟩ := (specialGuard_iff l).mp hs
        exact .special l t nh nb ht
      · rw [if_neg hs]
        have ns : ∀ t, l ≠ '*' :: ' ' :: '*' :: '*' :: t :=
          fun t ht => hs ((specialGuard_iff l).mpr ⟨t, ht⟩)
        by_cases hbl : bulletGuard l = true
        · rw [if_pos hbl]
          obtain ⟨c, t, hl, hc⟩ := (bulletGuard_iff l).mp hbl
          exact .bullet l c t nh nb ns hl hc
        · rw [if_neg hbl]
          have nbl : ∀ c t, l = '*' :: ' ' :: c :: t → c = '*' := by
            intro c t hl
            by_contra hc
            exact hbl ((bulletGuard_iff l).mpr ⟨c, t, hl, hc⟩)
          exact .para l nh nb ns nbl

theorem classifies_unique {l : List Char} {k : LineClass}
    (h : Classifies l k) : k = classifyLine l := by
  cases h with
  | header t ht =>
    have hh : headerGuard l = true := (headerGuard_iff l).mpr ⟨t, ht⟩
    simp [classifyLine, hh]
  | bold mid nh hm =>
    have hh : headerGuard l = false := by
      cases hg : headerGuard l with
      | false => rfl
      | true =>
        obtain ⟨t, ht⟩ := (headerGuard_iff l).mp hg
        exact absurd ht (nh t)
    have hb : boldGuard l = true := (boldGuard_iff l).mpr ⟨mid, hm⟩
    simp [classifyLine, hh, hb]
  | special t nh nb ht =>
    have hh : headerGuard l = false := by
      cases hg : headerGuard l with
      | false => rfl
      | true =>
        obtain ⟨t', ht'⟩ := (headerGuard_iff l).mp hg
        exact absurd ht' (nh t')
    have hb : boldGuard l = false := by
      cases hg : boldGuard l with
      | false => rfl
      | true =>
        obtain ⟨mid, hm⟩ := (boldGuard_iff l).mp hg
        exact absurd hm (nb mid)
    have hs : specialGuard l = true := (specialGuard_iff l).mpr ⟨t, ht⟩
    simp [classifyLine, hh, hb, hs]
  | bullet c t nh nb ns hl hc =>
    have hh : headerGuard l = false := by
      cases hg : headerGuard l with
      | false => rfl
      | true =>
        obtain ⟨t', ht'⟩ := (headerGuard_iff l).mp hg
        exact absurd ht' (nh t')
    have hb : boldGuard l = false := by
      cases hg : boldGuard l with
      | false => rfl
      | true =>
        obtain ⟨mid, hm⟩ := (boldGuard_iff l).mp hg
        exact absurd hm (nb mid)
    have hs : specialGuard l = false := by
      cases hg : specialGuard l with
      | false => rfl
      | true =>
        obtain ⟨t', ht'⟩ := (specialGuard_iff l).mp hg
        exact absurd ht' (ns t')
    have hbl : bulletGuard l = true := (bulletGuard_iff l).mpr ⟨c, t, hl, hc⟩
    simp [classifyLine, hh, hb, hs, hbl]
  | para nh nb ns nbl =>
    have hh : headerGuard l = false := by
      cases hg : headerGuard l with
      | false => rfl
      | true =>
        obtain ⟨t', ht'⟩ := (headerGuard_iff l).mp hg
        exact absurd ht' (nh t')
    have hb : boldGuard l = false := by
      cases hg : boldGuard l with
      | false => rfl
      | true =>
        obtain ⟨mid, hm⟩ := (boldGuard_iff l).mp hg
        exact absurd hm (nb mid)
    have hs : specialGuard l = false := by
      cases hg : specialGuard l with
      | false => rfl
      | true =>
        obtain ⟨t', ht'⟩ := (specialGuard_iff l).mp hg
        exact absurd ht' (ns t')
    have hbl : bulletGuard l = false := by
      cases hg : bulletGuard l with
      | false => rfl
      | true =>
        obtain ⟨c, t, hl, hc⟩ := (bulletGuard_iff l).mp hg
        exact absurd (nbl c t hl) hc
    simp [classifyLine, hh, hb, hs, hbl]

theorem processLine_eq_stepSpec (st : RState) (raw : List Char) :
    processLine st raw = stepSpec st (pyStrip raw) := by
  unfold processLine stepSpec classifyLine closeAccums flushBulletsSpec flushMentionsSpec addBlock
  cases hh : headerGuard (pyStrip raw) <;>
    cases hb : boldGuard (pyStrip raw) <;>
      cases hs : specialGuard (pyStrip raw) <;>
        cases hbl : bulletGuard (pyStrip raw) <;>
          simp [hh, hb, hs, hbl]

theorem searchVid_cons (c : Char) (rest : List Char) :
    searchVid (c :: rest) =
      match matchHere (c :: rest) with
      | some v => some v
      | none => searchVid rest := rfl

theorem matchHere_some_inv {s v : List Char} (h : matchHere s = some v) :
    ∃ c rest, s = 'v' :: '=' :: c :: rest ∧ c ≠ '&' ∧
      v = (c :: rest).takeWhile (fun x => x != '&') := by
  cases s with
  | nil => simp [matchHere] at h
  | cons a s1 =>
    cases s1 with
    | nil => simp [matchHere] at h
    | cons b s2 =>
      cases s2 with
      | nil => simp [matchHere] at h
      | cons c rest =>
        simp only [matchHere] at h
        by_cases hcond : a = 'v' ∧ b = '=' ∧ c ≠ '&'
        · rw [if_pos hcond] at h
          obtain ⟨ha, hb, hc⟩ := hcond
          subst ha; subst hb
          injection h with hv
          exact ⟨c, rest, rfl, hc, hv.symm⟩
        · rw [if_neg hcond] at h
          exact absurd h (by simp)

theorem matchHere_none_inv {s : List Char} (h : matchHere s = none) :
    ∀ c rest, s = 'v' :: '=' :: c :: rest → c = '&' := by
  intro c rest hs
  subst hs
  simp only [matchHere] at h
  by_cases hc : c = '&'
  · exact hc
  · rw [if_pos ⟨trivial, trivial, hc⟩] at h
    exact absurd h (by simp)

/-- C10 (amended): `extract_video_id` returns the maximal run of
non-ampersand characters following the leftmost occurrence of `v=` that
is immediately followed by at least one non-ampersand character, and
returns `None` exactly when no occurrence of `v=` is followed by a
non-ampersand character (in particular when `v=` is absent). -/
theorem extract_video_id_amended (s : List Char) :
    (extract_video_id s = none ↔
      ∀ pre c rest, s = pre ++ ('v' :: '=' :: c :: rest) → c = '&') ∧
    (∀ v, extract_video_id s = some v →
      ∃ pre rest, s = pre ++ ('v' :: '=' :: (v ++ rest)) ∧ v ≠ [] ∧
        (∀ x ∈ v, x ≠ '&') ∧ (rest = [] ∨ ∃ r, rest = '&' :: r) ∧
        ∀ pre' c' rest', s = pre' ++ ('v' :: '=' :: c' :: rest') → c' ≠ '&' →
          pre.length ≤ pre'.length) := by
  induction s with
  | nil =>
    constructor
    · constructor
      · intro _ pre c rest h
        rcases pre with _ | ⟨x, pre'⟩ <;> simp at h
      · intro _; rfl
    · intro v hv
      simp [extract_video_id, searchVid] at hv
  | cons a s' ih =>
    cases hm : matchHere (a :: s') with
    | some v0 =>
      obtain ⟨c, rest, hshape, hc, hv0⟩ := matchHere_some_inv hm
      have hsv : extract_video_id (a :: s') = some v0 := by
        show searchVid (a :: s') = some v0
        rw [searchVid_cons, hm]
      constructor
      · rw [hsv]
        constructor
        · intro h; exact absurd h (by simp)
        · intro hall
          exact absurd (hall [] c rest (by simpa using hshape)) hc
      · intro v hv
        rw [hsv] at hv
        injection hv with hv'
        subst hv'
        refine ⟨[], (c :: rest).dropWhile (fun x => x != '&'), ?_, ?_, ?_, ?_, ?_⟩
        · rw [hshape, hv0]
          simp [List.takeWhile_append_dropWhile]
        · rw [hv0, List.takeWhile_cons_of_pos (by simpa using hc)]
          simp
        · intro x hx
          rw [hv0] at hx
          simpa using List.mem_takeWhile_imp hx
        · cases hd : (c :: rest).dropWhile (fun x => x != '&') with
          | nil => exact Or.inl rfl
          | cons d r =>
            have hdf : (fun x => x != '&') d = false :=
              dropWhile_head_false (p := fun x => x != '&') hd
            refine Or.inr ⟨r, ?_⟩
            rw [show d = '&' by simpa using hdf]
        · intro pre' c' rest' _ _
          exact Nat.zero_le _
    | none =>
      have hscons : extract_video_id (a :: s') = extract_video_id s' := by
        show searchVid (a :: s') = searchVid s'
        rw [searchVid_cons, hm]
      obtain ⟨ih1, ih2⟩ := ih
      constructor
      · rw [hscons, ih1]
        constructor
        · intro hall pre c rst h
          cases pre with
          | nil => exact matchHere_none_inv hm c rst (by simpa using h)
          | cons x pre' =>
            rw [List.cons_append, List.cons.injEq] at h
            exact hall pre' c rst h.2
        · intro hall pre c rst h
          exact hall (a :: pre) c rst (by simp [h])
      · intro v hv
        rw [hscons] at hv
        obtain ⟨pre, rst, hs', hne, hmem, hrest, hmin⟩ := ih2 v hv
        refine ⟨a :: pre, rst, by simp [hs'], hne, hmem, hrest, ?_⟩
        intro pre' c' rest' h hc'
        cases pre' with
        | nil =>
          exact absurd (matchHere_none_inv hm c' rest' (by simpa using h)) hc'
        | cons x pre'' =>
          rw [List.cons_append, List.cons.injEq] at h
          have := hmin pre'' c' rest' h.2 hc'
          simp only [List.length_cons]
          omega

theorem numberLines_eq : ∀ (items : List (List Char)) (idx : Nat),
    numberedBulletLines idx items = specialMentionLines idx items := by
  intro items
  induction items with
  | nil => intro idx; rfl
  | cons it rest ih =>
    intro idx
    simp only [numberedBulletLines, specialMentionLines]
    rw [ih]

/-! ### Claim theorems -/

/-- C1 (amended): after whitespace-stripping, each line is classified by
the first matching rule of the precedence order — section title for a
`##` prefix, bold callout for a line fully wrapped in `**...**`, special
mention for a `* **` prefix, numbered bullet for `* ` followed by a
character other than `*` (the amendment: not merely any `* ` prefix),
and plain paragraph otherwise — and the three non-accumulating outcomes
close any open accumulation first.  The guard characterizations tie the
executable guards to the stated shapes. -/
theorem create_pdf_classification :
    (∀ st raw, processLine st raw = stepSpec st (pyStrip raw)) ∧
    (∀ l, headerGuard l = true ↔ ∃ t, l = '#' :: '#' :: t) ∧
    (∀ l, boldGuard l = true ↔ ∃ mid, l = '*' :: '*' :: (mid ++ ['*', '*'])) ∧
    (∀ l, specialGuard l = true ↔ ∃ t, l = '*' :: ' ' :: '*' :: '*' :: t) ∧
    (∀ l, bulletGuard l = true ↔ ∃ c t, l = '*' :: ' ' :: c :: t ∧ c ≠ '*') :=
  ⟨processLine_eq_stepSpec, headerGuard_iff, boldGuard_iff, specialGuard_iff, bulletGuard_iff⟩

/-- C1 counterexample: the line `* *a` begins with `* ` and not with
`* **`, so the claim says it joins the numbered-bullet accumulation;
the code classifies it as a plain paragraph (the regex requires a
non-star after `* `), and the rendered output contains no bullets
block. -/
theorem create_pdf_classification_counterexample :
    renderBlocks ("* *a".toList) =
      [Block.body ("* *a".toList), Block.title ("Generated By Neural Bee".toList)] ∧
    (renderBlocks ("* *a".toList)).all (fun b => !b.isBullets) = true := by
  decide

/-- C2 (amended): a stripped line that begins with `* ` followed by a
character other than `*` is appended to the numbered-bullet accumulation
(opening it), with the leading star removed and whitespace trimmed, and
a trailing `**` stripped (with a further trim) when present. -/
theorem bullet_lines_amended (st : RState) (raw : List Char)
    (h : bulletGuard (pyStrip raw) = true) :
    processLine st raw =
      { st with bullets := st.bullets ++ [bulletItemText (pyStrip raw)], inBullets := true } := by
  rw [processLine_eq_stepSpec]
  obtain ⟨c, t, hl, hc⟩ := (bulletGuard_iff _).mp h
  have hh : headerGuard (pyStrip raw) = false := by
    cases hg : headerGuard (pyStrip raw) with
    | false => rfl
    | true =>
      obtain ⟨t', ht'⟩ := (headerGuard_iff _).mp hg
      rw [hl] at ht'
      injection ht' with h1 _
      exact absurd h1 (by decide)
  have hb : boldGuard (pyStrip raw) = false := by
    cases hg : boldGuard (pyStrip raw) with
    | false => rfl
    | true =>
      obtain ⟨mid, hm⟩ := (boldGuard_iff _).mp hg
      rw [hl] at hm
      injection hm with _ hm2
      injection hm2 with h2 _
      exact absurd h2 (by decide)
  have hs : specialGuard (pyStrip raw) = false := by
    cases hg : specialGuard (pyStrip raw) with
    | false => rfl
    | true =>
      obtain ⟨t', ht'⟩ := (specialGuard_iff _).mp hg
      rw [hl] at ht'
      injection ht' with _ h2
      injection h2 with _ h3
      injection h3 with h4 _
      exact absurd h4 hc
  unfold stepSpec classifyLine
  simp [hh, hb, hs, h]

/-- C2 witness: the theorem applied to the initial state and the line
`* item one**`. -/
theorem bullet_lines_amended_witness :
    processLine initState ("* item one**".toList) =
      { initState with bullets := [("item one".toList)], inBullets := true } := by
  have h := bullet_lines_amended initState ("* item one**".toList) (by decide)
  exact h.trans (by decide)

/-- C2 counterexample: `* *quote` begins with `* ` but not with `* **`,
yet the code does not append it to the bullet accumulation — it becomes
a paragraph block and the accumulation stays closed. -/
theorem bullet_lines_counterexample :
    processLine initState ("* *quote".toList) =
      { initState with blocks := [Block.body ("* *quote".toList)] } ∧
    (processLine initState ("* *quote".toList)).bullets = [] ∧
    (processLine initState ("* *quote".toList)).inBullets = false := by
  decide

/-- C3 (amended): a failed transcript fetch (exception or empty result)
and a failed summary generation halt the downstream steps, because their
wrappers return `None` or a falsy value; mail send has no dependent
step.  Translation is the exception: on failure `translate_text` returns
its input text and the flow continues, passing that text to summary
generation. -/
theorem flow_halts_amended :
    (∀ url o, (o.transcriptResult = none ∨ o.transcriptResult = some []) →
      (appRun url o).summaryInput = none ∧ (appRun url o).pdfCreated = false ∧
      (appRun url o).emailAttempted = false) ∧
    (∀ url o, o.summaryResult = none →
      (appRun url o).pdfCreated = false ∧ (appRun url o).emailAttempted = false) ∧
    (∀ text, translate_text none text = text) ∧
    (∀ url o t, extract_video_id url ≠ none → o.transcriptResult = some t → t ≠ [] →
      o.generatePressed = true →
      (appRun url o).summaryInput = some (translate_text o.translationResult t)) := by
  refine ⟨?_, ?_, fun _ => rfl, ?_⟩
  · intro url o htr
    unfold appRun
    by_cases hu : url = []
    · rw [if_pos hu]; exact ⟨rfl, rfl, rfl⟩
    · rw [if_neg hu]
      cases hvid : extract_video_id url with
      | none => exact ⟨rfl, rfl, rfl⟩
      | some vid =>
        rcases htr with h | h <;> rw [h] <;> simp [get_transcript]
  · intro url o hsum
    unfold appRun
    by_cases hu : url = []
    · rw [if_pos hu]; exact ⟨rfl, rfl⟩
    · rw [if_neg hu]
      cases hvid : extract_video_id url with
      | none => exact ⟨rfl, rfl⟩
      | some vid =>
        cases htr : o.transcriptResult with
        | none => exact ⟨rfl, rfl⟩
        | some t =>
          by_cases ht : t = []
          · simp [get_transcript, ht]
          · rw [hsum]
            simp [get_transcript, ht, generate_summary]
            cases o.generatePressed <;> simp
  · intro url o t hvid htr ht hgen
    unfold appRun
    by_cases hu : url = []
    · exact absurd (by rw [hu]; rfl) hvid
    · rw [if_neg hu]
      cases hvid' : extract_video_id url with
      | none => exact absurd hvid' hvid
      | some vid =>
        rw [htr]
        simp only [get_transcript]
        rw [if_neg ht, hgen]
        cases hgs : generate_summary o.summaryResult with
        | none => simp
        | some d =>
          by_cases hmail : o.emailAddress ≠ [] ∧ o.sendPressed = true
          · rw [if_pos hmail]; simp
          · rw [if_neg hmail]; simp

/-- C3 witness: the amended theorem applied to a run with a failed
transcript fetch, and to a run with a failed translation whose summary
step receives the untranslated text. -/
theorem flow_halts_amended_witness :
    (appRun ("v=x".toList)
      ⟨none, some ("t".toList), some ("S".toList), true, true, ("a".toList), true⟩).pdfCreated
        = false ∧
    (appRun ("v=x".toList)
      ⟨some ("hi".toList), none, some ("S".toList), true, true, ("a".toList), true⟩).summaryInput
        = some (translate_text none ("hi".toList)) := by
  constructor
  · exact (flow_halts_amended.1 _ _ (Or.inl rfl)).2.1
  · exact flow_halts_amended.2.2.2 _ _ ("hi".toList) (by decide) rfl (by decide) rfl

/-- C3 counterexample: with the transcript fetched as `hi` and the
translation call failing, the claim says downstream steps are skipped;
instead the summary step runs on the untranslated text, the PDF is
created and the mail is attempted and sent. -/
theorem flow_halts_counterexample :
    appRun ("v=x".toList)
      ⟨some ("hi".toList), none, some ("S".toList), true, true, ("a".toList), true⟩ =
    ⟨some ("x".toList), true, some ("hi".toList), true, true, true⟩ := by
  decide

/-- C4: `clean_text` removes every curly quote, dash and ellipsis
character and every literal `**`, and trims surrounding whitespace; on
the sample input the smart quotes become straight quotes and the em dash
a hyphen. -/
theorem clean_text_sanitizes :
    (∀ s : List Char,
      '“' ∉ clean_text s ∧ '”' ∉ clean_text s ∧ '‘' ∉ clean_text s ∧ '’' ∉ clean_text s ∧
      '—' ∉ clean_text s ∧ '–' ∉ clean_text s ∧ '…' ∉ clean_text s ∧
      ¬ occursIn ['*', '*'] (clean_text s) ∧ pyStrip (clean_text s) = clean_text s) ∧
    clean_text ("He said “smart quotes” — twice…".toList) =
      ("He said \"smart quotes\" - twice...".toList) :=
  ⟨clean_text_props, by decide⟩

/-- C5: the numbered-bullet renderer and the special-mentions renderer
emit exactly the same lines — a 1-based `n. ` prefix before the cleaned
item — so the two block types only differ in grouping; on the spec's
example both quote lines land in one special-mentions group numbered 1
and 2. -/
theorem special_mentions_render_as_bullets :
    (∀ items, add_numbered_bullets items = add_special_mentions items) ∧
    renderBlocks ("* **Quote one**\n* **Quote two**".toList) =
      [Block.mentions [("Quote one**".toList), ("Quote two**".toList)],
       Block.title ("Generated By Neural Bee".toList)] ∧
    renderBlockLines (Block.mentions [("Quote one**".toList), ("Quote two**".toList)]) =
      [("1. Quote one".toList), ("2. Quote two".toList)] :=
  ⟨fun items => numberLines_eq items 1, by decide, by decide⟩

/-- C6: an accumulation still open when the input ends is flushed into
the output as its own block type rather than dropped. -/
theorem trailing_accumulations_flushed (content : List Char) :
    ((accumState content).bullets ≠ [] →
      Block.bullets (accumState content).bullets ∈ renderBlocks content) ∧
    ((accumState content).mentions ≠ [] →
      Block.mentions (accumState content).mentions ∈ renderBlocks content) := by
  constructor <;> intro h
  · simp only [renderBlocks]
    rw [if_pos h]
    split <;> simp
  · simp only [renderBlocks]
    split <;> simp_all

/-- C6 witness: a trailing bullet group and a trailing special-mentions
group are both emitted. -/
theorem trailing_accumulations_flushed_witness :
    Block.bullets (accumState ("* a".toList)).bullets ∈ renderBlocks ("* a".toList) ∧
    Block.mentions (accumState ("* **q".toList)).mentions ∈ renderBlocks ("* **q".toList) :=
  ⟨(trailing_accumulations_flushed _).1 (by decide),
   (trailing_accumulations_flushed _).2 (by decide)⟩

/-- C7: the page header stamped by `PDF.header` is the same fixed text
on every page, and the closing chapter title `Generated By Neural Bee`
is the last block of every rendered document. -/
theorem header_on_every_page_and_closing_title (d : SummaryDict) (m n : Nat) :
    headerOnPage (create_pdf d) m = headerOnPage (create_pdf d) n ∧
    headerOnPage (create_pdf d) m = ("NeuralBee - Podcast Summarizer".toList) ∧
    (create_pdf d).blocks.getLast? = some (Block.title ("Generated By Neural Bee".toList)) := by
  refine ⟨rfl, rfl, ?_⟩
  show (renderBlocks d.summary).getLast? = _
  simp only [renderBlocks]
  exact List.getLast?_concat _

/-- C8: the classification rules assign exactly one class to every line,
the executable classifier realizes that assignment, and rendering is a
function of the input text alone — rendering the same input twice gives
identical block sequences. -/
theorem rendering_deterministic :
    (∀ l, ∃! k, Classifies l k) ∧
    (∀ l, Classifies l (classifyLine l)) ∧
    (∀ c₁ c₂ : List Char, c₁ = c₂ → renderBlocks c₁ = renderBlocks c₂) :=
  ⟨fun l => ⟨classifyLine l, classifies_total l, fun _ hk => classifies_unique hk⟩,
   classifies_total, fun _ _ h => by rw [h]⟩

/-- C8 witness: the determinism conjunct applied to a concrete input. -/
theorem rendering_deterministic_witness :
    renderBlocks ("## T".toList) = renderBlocks ("## T".toList) :=
  rendering_deterministic.2.2 _ _ rfl

/-- C9: the sanitizer is idempotent — its replacement table introduces
no character it later replaces, removing `**` leaves no new `**`, and
stripping a stripped string changes nothing. -/
theorem clean_text_idem (s : List Char) : clean_text (clean_text s) = clean_text s := by
  obtain ⟨h1, h2, h3, h4, h5, h6, h7, hstar, hstrip⟩ := clean_text_props s
  rw [clean_text_eq (clean_text s)]
  rw [pyReplace_single_id h1, pyReplace_single_id h2, pyReplace_single_id h3,
    pyReplace_single_id h4, pyReplace_single_id h5, pyReplace_single_id h6,
    pyReplace_single_id h7, pyReplace_of_not_occurs hstar, hstrip]

/-- C10 witness: the amended theorem applied to `watch?v=xy&z`. -/
theorem extract_video_id_amended_witness :
    ∃ pre rest, ("watch?v=xy&z".toList) = pre ++ ('v' :: '=' :: (("xy".toList) ++ rest)) ∧
      ("xy".toList) ≠ [] ∧ (∀ x ∈ ("xy".toList), x ≠ '&') ∧
      (rest = [] ∨ ∃ r, rest = '&' :: r) ∧
      ∀ pre' c' rest', ("watch?v=xy&z".toList) = pre' ++ ('v' :: '=' :: c' :: rest') →
        c' ≠ '&' → pre.length ≤ pre'.length :=
  (extract_video_id_amended ("watch?v=xy&z".toList)).2 ("xy".toList) (by decide)

/-- C10 counterexample: `v=` occurs in both inputs, yet on `v=` alone
the code returns `None` (the claim says a value is returned whenever
`v=` occurs), and on `v=&v=ab` it returns `ab`, which is not the
substring following the first `v=` up to the next `&` (that substring is
empty). -/
theorem extract_video_id_counterexample :
    extract_video_id ("v=".toList) = none ∧
    extract_video_id ("v=&v=ab".toList) = some ("ab".toList) := by
  decide

